import Mathlib

/-!
Verification of the regexp tokenizer core (src/lib/nltk/tokenize/regexp.py).

The development shallowly embeds the tokenizer together with the behaviour of
the Python 2 `re` engine it calls (`re.findall`, `re.finditer`, `re.split`,
`re.compile`).  Texts are lists of characters (Python unicode strings are
sequences of code points).  The regex engine is modelled as a backtracking
matcher over an abstract syntax tree: `reMatches` returns the candidate match
ends in backtracking-priority order (greedy quantifiers, leftmost alternative
first), and `searchAux` scans left to right for the first position admitting a
match, exactly as `re.search` does.  The pre-3.7 CPython scanner semantics are
modelled: after a zero-length match the scan position advances by one, and
`re.split` never splits on a zero-length separator match.

Modelling scope: the pattern language covers literals, `.`, escapes
(`\w \W \s \S \d \D \n \t \r` and escaped punctuation), bracket classes with
ranges and negation, alternation, grouping `( )` and `(?: )`, and the
quantifiers `* + ?`.  Anchors, counted repetition and look-around are outside
the model.  `\s` is the ASCII whitespace class; `\w` depends on the UNICODE
flag (ASCII word characters without it; the model treats all code points
≥ 0x80 as word characters with it).  `.` depends on the DOTALL flag.
-/

namespace NltkRegexp

/-- Character class membership for Python's ASCII `\s`. -/
def isPySpace (c : Char) : Bool :=
  c = ' ' || c = '\t' || c = '\n' || c = '\r' || c = '\x0b' || c = '\x0c'

/-- Membership in Python's ASCII `\w` (letters, digits, underscore). -/
def isAsciiWord (c : Char) : Bool :=
  c.isAlphanum || c = '_'

/-- Membership in `\w` under `re.UNICODE`; the model treats every code point
outside ASCII as a word character. -/
def isUniWord (c : Char) : Bool :=
  c.isAlphanum || c = '_' || 0x80 ≤ c.toNat

/-- Character of a text at an index. -/
def charAt : List Char → Nat → Option Char
  | [], _ => none
  | c :: _, 0 => some c
  | _ :: cs, n + 1 => charAt cs n

/-- Python slice `text[s:e]` for `0 ≤ s ≤ e` (out-of-range indices clamp). -/
def pySlice (text : List Char) (s e : Nat) : List Char :=
  (text.drop s).take (e - s)

/-- Regex compilation flags (the subset stored by the tokenizer:
`re.UNICODE`, `re.MULTILINE`, `re.DOTALL`). -/
structure Flags where
  unicode : Bool
  multiline : Bool
  dotall : Bool
deriving DecidableEq, Repr

/-- Flag set used by a bare `re.compile(pattern)` call in Python 2: none of
the three flags is enabled. -/
def pyCompileFlags : Flags := ⟨false, false, false⟩

/-- Default value of the tokenizer's `flags` argument:
`re.UNICODE | re.MULTILINE | re.DOTALL`. -/
def defaultFlags : Flags := ⟨true, true, true⟩

/-- Perl-style character classes. -/
inductive PerlCls where
  | word | nonword | space | nonspace | digit | nondigit
deriving DecidableEq, Repr

/-- Item of a bracket character class `[...]`. -/
inductive SetItem where
  | ch (c : Char)
  | range (a b : Char)
  | perl (p : PerlCls)
deriving DecidableEq, Repr

/-- Single-character matcher. -/
inductive Atom where
  | ch (c : Char)
  | dot
  | perl (p : PerlCls)
  | set (neg : Bool) (items : List SetItem)
deriving DecidableEq, Repr

/-- Regular expression abstract syntax (`plus` and `opt` are desugared by the
pattern compiler into `cat`/`star` and `alt`/`eps`). -/
inductive Re where
  | eps
  | atom (a : Atom)
  | cat (r s : Re)
  | alt (r s : Re)
  | star (r : Re)
  | group (n : Nat) (r : Re)
deriving DecidableEq, Repr

/-- Membership in a Perl class under the given flags. -/
def matchPerl (f : Flags) : PerlCls → Char → Bool
  | .word, c => if f.unicode then isUniWord c else isAsciiWord c
  | .nonword, c => !(if f.unicode then isUniWord c else isAsciiWord c)
  | .space, c => isPySpace c
  | .nonspace, c => !isPySpace c
  | .digit, c => c.isDigit
  | .nondigit, c => !c.isDigit

/-- Membership in one bracket-class item. -/
def matchSetItem (f : Flags) : SetItem → Char → Bool
  | .ch a, c => c = a
  | .range a b, c => a ≤ c && c ≤ b
  | .perl p, c => matchPerl f p c

/-- Does the atom match the character? -/
def matchAtom (f : Flags) : Atom → Char → Bool
  | .ch a, c => c = a
  | .dot, c => if f.dotall then true else c ≠ '\n'
  | .perl p, c => matchPerl f p c
  | .set neg items, c => (items.any fun it => matchSetItem f it c) != neg

/-- Capture store: most recent write for each group number first. -/
abbrev Caps := List (Nat × Nat × Nat)

/-- Last recorded span of a group. -/
def capLookup (caps : Caps) (n : Nat) : Option (Nat × Nat) :=
  (caps.find? fun g => g.1 = n).map fun g => g.2

/-- Greedy repetition of a matcher body: candidate ends listed longest-match
first, bounded by the iteration counter `k`.  Iterations that consume no
input are pruned, which is how the engine avoids looping on a nullable
repetition body (an iteration bound of the text length is therefore
exhaustive, since every kept iteration consumes at least one character). -/
def starMatches (body : Nat → Caps → List (Nat × Caps)) :
    Nat → Nat → Caps → List (Nat × Caps)
  | 0, pos, caps => [(pos, caps)]
  | k + 1, pos, caps =>
      (((body pos caps).filter fun pc => decide (pos < pc.1)).flatMap
        fun pc => starMatches body k pc.1 pc.2) ++ [(pos, caps)]

/-- Candidate ends (with captures) of a match of `r` starting at `pos`, in
backtracking-priority order: the head is the match the Python engine commits
to at this position. -/
def reMatches (f : Flags) (text : List Char) : Re → Nat → Caps → List (Nat × Caps)
  | .eps, pos, caps => [(pos, caps)]
  | .atom a, pos, caps =>
      match charAt text pos with
      | some c => if matchAtom f a c then [(pos + 1, caps)] else []
      | none => []
  | .cat r s, pos, caps =>
      (reMatches f text r pos caps).flatMap fun pc => reMatches f text s pc.1 pc.2
  | .alt r s, pos, caps =>
      reMatches f text r pos caps ++ reMatches f text s pos caps
  | .star r, pos, caps =>
      starMatches (reMatches f text r) text.length pos caps
  | .group n r, pos, caps =>
      (reMatches f text r pos caps).map fun pc => (pc.1, (n, pos, pc.1) :: pc.2)

/-- Leftmost search: try each start position from `pos` upwards and commit to
the highest-priority match at the first position that has one (`re.search`).
The fuel is the number of remaining start positions. -/
def searchAux (f : Flags) (r : Re) (text : List Char) : Nat → Nat → Option (Nat × Nat × Caps)
  | 0, _ => none
  | fuel + 1, pos =>
      if text.length < pos then none
      else
        match reMatches f text r pos [] with
        | (e, caps) :: _ => some (pos, e, caps)
        | [] => searchAux f r text fuel (pos + 1)

/-- Search for the leftmost match of `r` at or after `pos`. -/
def searchF (f : Flags) (r : Re) (text : List Char) (pos : Nat) : Option (Nat × Nat × Caps) :=
  searchAux f r text (text.length + 1 - pos) pos

/-- Compiled pattern: syntax tree plus the number of capturing groups. -/
structure CompiledRe where
  re : Re
  ngroups : Nat
deriving DecidableEq, Repr

/-- String captured by group `n`, with Python's `''` for a group that did not
participate in the match (the convention of `re.findall`). -/
def groupStr (text : List Char) (caps : Caps) (n : Nat) : List Char :=
  match capLookup caps n with
  | some (a, b) => pySlice text a b
  | none => []

/-- String captured by group `n`, or Python `None` if the group did not
participate (the convention of `re.split`). -/
def groupOpt (text : List Char) (caps : Caps) (n : Nat) : Option (List Char) :=
  (capLookup caps n).map fun ab => pySlice text ab.1 ab.2

/-- Match scanner underlying `re.finditer` and `re.findall` (pre-3.7
semantics): repeatedly search from the current position; after a zero-length
match the position advances by one unit.  `none` means the fuel ran out. -/
def findIterAux (f : Flags) (r : Re) (text : List Char) :
    Nat → Nat → Option (List (Nat × Nat × Caps))
  | 0, _ => none
  | fuel + 1, pos =>
      if text.length < pos then some []
      else
        match searchF f r text pos with
        | none => some []
        | some (s, e, caps) =>
            (findIterAux f r text fuel (if s = e then e + 1 else e)).map
              fun rest => (s, e, caps) :: rest

/-- All non-overlapping matches of `r` in `text`, left to right
(`re.finditer`). -/
def reFindIter (f : Flags) (r : Re) (text : List Char) : List (Nat × Nat × Caps) :=
  (findIterAux f r text (text.length + 2) 0).getD []

/-- Python value appearing in a tokenizer result list: a string, `None`
(produced by `re.split` for a non-participating group), or a tuple of group
strings (produced by `re.findall` for a pattern with two or more groups). -/
inductive PyTok where
  | str (s : List Char)
  | noneV
  | tup (ss : List (List Char))
deriving DecidableEq, Repr

/-- Python truthiness of a result element (`if tok:`). -/
def PyTok.truthy : PyTok → Bool
  | .str s => !s.isEmpty
  | .noneV => false
  | .tup ss => !ss.isEmpty

/-- Behaviour of `re.findall`: the whole match when the pattern has no
capturing group, the single group when it has exactly one, and the tuple of
groups otherwise. -/
def reFindall (f : Flags) (cre : CompiledRe) (text : List Char) : List PyTok :=
  (reFindIter f cre.re text).map fun m =>
    if cre.ngroups = 0 then .str (pySlice text m.1 m.2.1)
    else if cre.ngroups = 1 then .str (groupStr text m.2.2 1)
    else .tup ((List.range cre.ngroups).map fun i => groupStr text m.2.2 (i + 1))

/-- Loop of pre-3.7 `re.split`: a zero-length separator match never splits
(the scan just advances past it, stopping if the text is already consumed);
a proper match contributes the segment before it and the captured groups.
`none` means the fuel ran out. -/
def splitAux (f : Flags) (cre : CompiledRe) (text : List Char) :
    Nat → Nat → Nat → Option (List (Option (List Char)))
  | 0, _, _ => none
  | fuel + 1, pos, last =>
      match searchF f cre.re text pos with
      | none => some [some (pySlice text last text.length)]
      | some (s, e, caps) =>
          if s = e then
            if last = text.length then some [some (pySlice text last text.length)]
            else splitAux f cre text fuel (s + 1) last
          else
            (splitAux f cre text fuel e e).map fun rest =>
              some (pySlice text last s) ::
                ((List.range cre.ngroups).map fun i => groupOpt text caps (i + 1)) ++ rest

/-- Behaviour of pre-3.7 `re.split` (without `maxsplit`). -/
def reSplit (f : Flags) (cre : CompiledRe) (text : List Char) : List (Option (List Char)) :=
  (splitAux f cre text (text.length + 2) 0 0).getD []

/-- Atom denoted by an escape sequence `\c`. -/
def escAtom : Char → Atom
  | 'w' => .perl .word
  | 'W' => .perl .nonword
  | 's' => .perl .space
  | 'S' => .perl .nonspace
  | 'd' => .perl .digit
  | 'D' => .perl .nondigit
  | 'n' => .ch '\n'
  | 't' => .ch '\t'
  | 'r' => .ch '\r'
  | c => .ch c

/-- Bracket-class item denoted by an escape sequence inside `[...]`. -/
def escItem : Char → SetItem
  | 'w' => .perl .word
  | 'W' => .perl .nonword
  | 's' => .perl .space
  | 'S' => .perl .nonspace
  | 'd' => .perl .digit
  | 'D' => .perl .nondigit
  | 'n' => .ch '\n'
  | 't' => .ch '\t'
  | 'r' => .ch '\r'
  | c => .ch c

/-- Items of a bracket class, read up to the closing `]` (which is
consumed). -/
def parseSetItems : List Char → Option (List SetItem × List Char)
  | [] => none
  | ']' :: rest => some ([], rest)
  | '\\' :: c :: rest =>
      (parseSetItems rest).map fun ir => (escItem c :: ir.1, ir.2)
  | a :: '-' :: ']' :: rest => some ([.ch a, .ch '-'], rest)
  | a :: '-' :: b :: rest =>
      (parseSetItems rest).map fun ir => (.range a b :: ir.1, ir.2)
  | a :: rest =>
      (parseSetItems rest).map fun ir => (.ch a :: ir.1, ir.2)

/-- Concatenation that drops a trailing empty factor. -/
def mkCat : Re → Re → Re
  | r, .eps => r
  | r, s => .cat r s

/-- Grammar level being parsed: alternation, sequence, quantified factor,
basic factor. -/
inductive PLevel where
  | alt | cat | rep | base
deriving DecidableEq, Repr

/-- Recursive-descent reading of the pattern syntax accepted by the model
(see the module comment for the scope).  Returns the parsed expression, the
unread rest, and the updated capturing-group counter; `none` is a syntax
error.  Recursion is bounded by explicit fuel; every recursive call either
descends one grammar level or first consumes input, so a fuel linear in the
pattern length is exhaustive. -/
def parseP : Nat → PLevel → List Char → Nat → Option (Re × List Char × Nat)
  | 0, _, _, _ => none
  | fuel + 1, .alt, l, n => do
      let (r, rest, n') ← parseP fuel .cat l n
      match rest with
      | '|' :: rest' => do
          let (r2, rest2, n'') ← parseP fuel .alt rest' n'
          pure (.alt r r2, rest2, n'')
      | _ => pure (r, rest, n')
  | fuel + 1, .cat, l, n =>
      match l with
      | [] => some (.eps, [], n)
      | ')' :: _ => some (.eps, l, n)
      | '|' :: _ => some (.eps, l, n)
      | _ => do
          let (r, rest, n') ← parseP fuel .rep l n
          let (r2, rest2, n'') ← parseP fuel .cat rest n'
          pure (mkCat r r2, rest2, n'')
  | fuel + 1, .rep, l, n => do
      let (r, rest, n') ← parseP fuel .base l n
      match rest with
      | '*' :: rest' => pure (.star r, rest', n')
      | '+' :: rest' => pure (.cat r (.star r), rest', n')
      | '?' :: rest' => pure (.alt r .eps, rest', n')
      | _ => pure (r, rest, n')
  | fuel + 1, .base, l, n =>
      match l with
      | [] => none
      | '(' :: '?' :: ':' :: rest => do
          let (r, rest', n') ← parseP fuel .alt rest n
          match rest' with
          | ')' :: rest'' => pure (r, rest'', n')
          | _ => none
      | '(' :: '?' :: _ => none
      | '(' :: rest => do
          let (r, rest', n') ← parseP fuel .alt rest (n + 1)
          match rest' with
          | ')' :: rest'' => pure (.group (n + 1) r, rest'', n')
          | _ => none
      | ')' :: _ => none
      | '|' :: _ => none
      | '*' :: _ => none
      | '+' :: _ => none
      | '?' :: _ => none
      | '[' :: '^' :: rest =>
          (parseSetItems rest).map fun ir => (.atom (.set true ir.1), ir.2, n)
      | '[' :: rest =>
          (parseSetItems rest).map fun ir => (.atom (.set false ir.1), ir.2, n)
      | '\\' :: c :: rest => some (.atom (escAtom c), rest, n)
      | '\\' :: [] => none
      | '.' :: rest => some (.atom .dot, rest, n)
      | c :: rest => some (.atom (.ch c), rest, n)

/-- Behaviour of `re.compile` on the pattern text: `none` models a
`PatternError` (`sre_constants.error`) for a syntactically invalid pattern. -/
def compileRe (p : String) : Option CompiledRe :=
  match parseP (4 * p.length + 8) .alt p.data 0 with
  | some (r, [], n) => some ⟨r, n⟩
  | _ => none

/-- Error raised by the tokenizer: the pattern failed to compile. -/
inductive PyErr where
  | patternError
deriving DecidableEq, Repr

/-- Argument accepted by the constructor for `pattern`: either a pattern
string or an object exposing a `pattern` attribute, such as a precompiled
regex object (which carries the flags it was compiled with). -/
inductive PatternArg where
  | str (p : String)
  | compiled (p : String) (fl : Flags)
deriving DecidableEq, Repr

/-- Evaluation of `getattr(pattern, 'pattern', pattern)` in `__init__`. -/
def patternOf : PatternArg → String
  | .str p => p
  | .compiled p _ => p

/-- State stored by `RegexpTokenizer.__init__` (`_pattern`, `_gaps`,
`_discard_empty`, `_flags`); `_regexp` starts out `None` and is recomputed
by `_check_regexp` from `_pattern` alone, so it is not part of the value. -/
structure RegexpTokenizer where
  pattern : String
  gaps : Bool
  discardEmpty : Bool
  flags : Flags
deriving DecidableEq, Repr

/-- Constructor `RegexpTokenizer(pattern, gaps, discard_empty, flags)`:
extracts the pattern string from the argument and stores the configuration;
no compilation happens here (lazy compilation). -/
def mkTokenizer (arg : PatternArg) (gaps discardEmpty : Bool) (flags : Flags) :
    RegexpTokenizer :=
  ⟨patternOf arg, gaps, discardEmpty, flags⟩

/-- Lazy compilation step `_check_regexp`: the source calls
`re.compile(self._pattern)` without passing `self._flags`, so the compiled
matcher is built from the pattern alone and matching runs under Python's
default flag set `pyCompileFlags`. -/
def checkRegexp (t : RegexpTokenizer) : Option CompiledRe :=
  compileRe t.pattern

/-- Conversion of one `re.split` result element to the value stored in the
token list. -/
def splitItemToTok : Option (List Char) → PyTok
  | some s => .str s
  | none => .noneV

/-- Method `tokenize`: `re.split` (with optional filtering of falsy elements)
in gap mode, `re.findall` otherwise. -/
def RegexpTokenizer.tokenize (t : RegexpTokenizer) (text : List Char) :
    Except PyErr (List PyTok) :=
  match checkRegexp t with
  | none => .error .patternError
  | some cre =>
      if t.gaps then
        if t.discardEmpty then
          .ok (((reSplit pyCompileFlags cre text).map splitItemToTok).filter PyTok.truthy)
        else
          .ok ((reSplit pyCompileFlags cre text).map splitItemToTok)
      else
        .ok (reFindall pyCompileFlags cre text)

/-- Modelled from the spec: the helper `regexp_span_tokenize` lives in
`nltk/tokenize/util.py`, which is not part of the sources; §4.3 of the spec
describes it as keeping a cursor `last_end` starting at 0, yielding the
candidate span `[last_end, m_start)` for each separator match `[m_start,
m_end)` and then the trailing span `[last_end, len(text))`. -/
def regexpSpanTokenize (f : Flags) (r : Re) (text : List Char) : List (Nat × Nat) :=
  gapsOf text.length 0 (reFindIter f r text)
where
  gapsOf (len : Nat) : Nat → List (Nat × Nat × Caps) → List (Nat × Nat)
    | last, [] => [(last, len)]
    | last, m :: rest => (last, m.1) :: gapsOf len m.2.1 rest

/-- Method `span_tokenize`: spans between separator matches in gap mode
(dropping the empty ones when `discard_empty` is set), spans of the matches
themselves otherwise. -/
def RegexpTokenizer.spanTokenize (t : RegexpTokenizer) (text : List Char) :
    Except PyErr (List (Nat × Nat)) :=
  match checkRegexp t with
  | none => .error .patternError
  | some cre =>
      if t.gaps then
        .ok ((regexpSpanTokenize pyCompileFlags cre.re text).filter
          fun sp => !(t.discardEmpty && sp.1 = sp.2))
      else
        .ok ((reFindIter pyCompileFlags cre.re text).map fun m => (m.1, m.2.1))

/-- Preset `WhitespaceTokenizer()`: `RegexpTokenizer(r'\s+', gaps=True)`. -/
def whitespaceTokenizer : RegexpTokenizer :=
  mkTokenizer (.str "\\s+") true true defaultFlags

/-- Preset `BlanklineTokenizer()`:
`RegexpTokenizer(r'\s*\n\s*\n\s*', gaps=True)`. -/
def blanklineTokenizer : RegexpTokenizer :=
  mkTokenizer (.str "\\s*\n\\s*\n\\s*") true true defaultFlags

/-- Preset `WordPunctTokenizer()`: `RegexpTokenizer(r'\w+|[^\w\s]+')`. -/
def wordPunctTokenizer : RegexpTokenizer :=
  mkTokenizer (.str "\\w+|[^\\w\\s]+") false true defaultFlags

/-- Python `' '.join`: tokens joined with a single space character. -/
def joinSp : List (List Char) → List Char
  | [] => []
  | [w] => w
  | w :: ws => w ++ ' ' :: joinSp ws

/-- Reference splitter for the whitespace preset: accumulate the current word
(reversed) while scanning; whitespace closes the word. -/
def wsWordsAux : List Char → List Char → List (List Char)
  | acc, [] => if acc.isEmpty then [] else [acc.reverse]
  | acc, c :: cs =>
      if isPySpace c then
        if acc.isEmpty then wsWordsAux [] cs else acc.reverse :: wsWordsAux [] cs
      else wsWordsAux (c :: acc) cs

/-- Maximal whitespace-free nonempty runs of a text, in order. -/
def wsWords (l : List Char) : List (List Char) :=
  wsWordsAux [] l

/-- Length of the whitespace run at the head of a list. -/
def wsRun : List Char → Nat
  | [] => 0
  | c :: cs => if isPySpace c then wsRun cs + 1 else 0

/-- Index of the first whitespace character of a list. -/
def firstIdx : List Char → Option Nat
  | [] => none
  | c :: cs => if isPySpace c then some 0 else (firstIdx cs).map (· + 1)

/-- Index of the first whitespace character at or after `pos`. -/
def firstWS (text : List Char) (pos : Nat) : Option Nat :=
  (firstIdx (text.drop pos)).map (pos + ·)

/-- Syntax tree that `re.compile(r'\s+')` produces in the model. -/
def wsRe : Re :=
  .cat (.atom (.perl .space)) (.star (.atom (.perl .space)))

/-- End of the whitespace-run match committed to at a whitespace position. -/
def wsMatchEnd (text : List Char) (pos : Nat) : Nat :=
  pos + 1 + wsRun (text.drop (pos + 1))

/-- C1: the consistency contract fails on the code.  For the configuration
(pattern `(a)b`, TOKEN mode, defaults) on text `ab`, `tokenize` returns
`['a']` (because `re.findall` returns the capturing group), while
`span_tokenize` yields the span `(0, 2)` of the whole match, which slices to
`'ab'` — the two sequences differ, although the class docstring states the
pattern "may safely contain capturing parentheses". -/
theorem c1_span_slices_differ_from_tokenize :
    (mkTokenizer (.str "(a)b") false true defaultFlags).tokenize "ab".data
      = .ok [PyTok.str ['a']]
    ∧ (mkTokenizer (.str "(a)b") false true defaultFlags).spanTokenize "ab".data
      = .ok [(0, 2)]
    ∧ pySlice "ab".data 0 2 = ['a', 'b']
    ∧ [PyTok.str ['a']] ≠ [PyTok.str ['a', 'b']] := by
  refine ⟨rfl, rfl, rfl, by decide⟩

/-- C2: the flags are ignored by the code.  `_check_regexp` calls
`re.compile(self._pattern)` without `self._flags`, so two configurations with
the same pattern and different `match_options` always tokenize identically,
and with the default options the dot pattern fails to match a newline even
though the docstring promises `re.DOTALL` semantics: `tokenize('\n')` is `[]`
while a matcher honouring the configured flags finds `['\n']`. -/
theorem c2_match_options_ignored :
    (∀ (fl fl' : Flags) (p : String) (g d : Bool) (text : List Char),
        (mkTokenizer (.str p) g d fl).tokenize text
          = (mkTokenizer (.str p) g d fl').tokenize text)
    ∧ (mkTokenizer (.str ".") false true defaultFlags).tokenize "\n".data = .ok []
    ∧ compileRe "." = some ⟨.atom .dot, 0⟩
    ∧ reFindall defaultFlags ⟨.atom .dot, 0⟩ "\n".data = [PyTok.str ['\n']] := by
  exact ⟨fun _ _ _ _ _ _ => rfl, rfl, rfl, rfl⟩

/-- C3: TOKEN mode does not return the matched substrings for patterns with
capturing parentheses, contrary to the class docstring.  On pattern `(a)b`
and text `ab` the single non-overlapping match is `(0, 2)` with substring
`'ab'`, but `tokenize` returns `['a']` (the group), because the code uses
`re.findall`. -/
theorem c3_findall_returns_groups :
    compileRe "(a)b"
      = some ⟨.cat (.group 1 (.atom (.ch 'a'))) (.atom (.ch 'b')), 1⟩
    ∧ (reFindIter pyCompileFlags
        (.cat (.group 1 (.atom (.ch 'a'))) (.atom (.ch 'b'))) "ab".data).map
          (fun m => pySlice "ab".data m.1 m.2.1) = [['a', 'b']]
    ∧ (mkTokenizer (.str "(a)b") false true defaultFlags).tokenize "ab".data
      = .ok [PyTok.str ['a']]
    ∧ PyTok.str ['a'] ≠ PyTok.str ['a', 'b'] := by
  refine ⟨rfl, rfl, rfl, by decide⟩

/-- C4: GAP mode with a one-or-more-whitespace separator on `" a  b "`
returns `["a", "b"]` when empty tokens are discarded and
`["", "a", "b", ""]` when they are kept. -/
theorem c4_gap_mode_whitespace_example :
    (mkTokenizer (.str "\\s+") true true defaultFlags).tokenize " a  b ".data
      = .ok [PyTok.str ['a'], PyTok.str ['b']]
    ∧ (mkTokenizer (.str "\\s+") true false defaultFlags).tokenize " a  b ".data
      = .ok [PyTok.str [], PyTok.str ['a'], PyTok.str ['b'], PyTok.str []] :=
  ⟨rfl, rfl⟩

/-- C7: an invalid pattern surfaces as a `PatternError` at first use
(compilation is lazy: the constructor only stores the configuration), and the
failure is fatal for the configuration — every call of `tokenize` or
`span_tokenize`, on any text, fails with the same `PatternError`. -/
theorem c7_invalid_pattern_fatal (t : RegexpTokenizer)
    (h : compileRe t.pattern = none) (text : List Char) :
    t.tokenize text = .error .patternError
    ∧ t.spanTokenize text = .error .patternError := by
  constructor
  · show (match checkRegexp t with
      | none => Except.error PyErr.patternError
      | some cre => _) = _
    rw [show checkRegexp t = none from h]
  · show (match checkRegexp t with
      | none => Except.error PyErr.patternError
      | some cre => _) = _
    rw [show checkRegexp t = none from h]

/-- Witness for C7 at the concrete invalid pattern `(` and text `abc`. -/
theorem c7_invalid_pattern_fatal_witness :
    compileRe (mkTokenizer (.str "(") false true defaultFlags).pattern = none
    ∧ (mkTokenizer (.str "(") false true defaultFlags).tokenize "abc".data
      = .error .patternError
    ∧ (mkTokenizer (.str "(") false true defaultFlags).spanTokenize "abc".data
      = .error .patternError := by
  refine ⟨rfl, ?_, ?_⟩
  · exact (c7_invalid_pattern_fatal (mkTokenizer (.str "(") false true defaultFlags)
      rfl "abc".data).1
  · exact (c7_invalid_pattern_fatal (mkTokenizer (.str "(") false true defaultFlags)
      rfl "abc".data).2

/-- C9: the word/punctuation preset splits `"Good $3.88"` into
`["Good", "$", "3", ".", "88"]`, and the blank-line preset splits
`"line one\n\nline two"` into `["line one", "line two"]`. -/
theorem c9_presets_examples :
    wordPunctTokenizer.tokenize "Good $3.88".data
      = .ok [PyTok.str "Good".data, PyTok.str ['$'], PyTok.str ['3'],
             PyTok.str ['.'], PyTok.str "88".data]
    ∧ blanklineTokenizer.tokenize "line one\n\nline two".data
      = .ok [PyTok.str "line one".data, PyTok.str "line two".data] :=
  ⟨rfl, rfl⟩

/-- C10: constructing the tokenizer from an object exposing a `pattern`
attribute (a precompiled regex) behaves exactly as constructing it from that
attribute's string: the stored pattern, the whole configuration, and all
`tokenize`/`span_tokenize` results coincide, and the object's own compilation
flags are discarded by the extraction. -/
theorem c10_pattern_attribute_extracted (p : String) (objFlags flArg : Flags)
    (g d : Bool) (text : List Char) :
    mkTokenizer (.compiled p objFlags) g d flArg = mkTokenizer (.str p) g d flArg
    ∧ (mkTokenizer (.compiled p objFlags) g d flArg).pattern = p
    ∧ (mkTokenizer (.compiled p objFlags) g d flArg).tokenize text
      = (mkTokenizer (.str p) g d flArg).tokenize text
    ∧ (mkTokenizer (.compiled p objFlags) g d flArg).spanTokenize text
      = (mkTokenizer (.str p) g d flArg).spanTokenize text :=
  ⟨rfl, rfl, rfl, rfl⟩

/-- Ends produced by `starMatches` never precede the start position. -/
theorem starMatches_mem_le {body : Nat → Caps → List (Nat × Caps)} :
    ∀ k pos caps pc, pc ∈ starMatches body k pos caps → pos ≤ pc.1 := by
  intro k
  induction k with
  | zero =>
    intro pos caps pc h
    simp only [starMatches, List.mem_singleton] at h
    simp [h]
  | succ k ih =>
    intro pos caps pc h
    simp only [starMatches, List.mem_append, List.mem_flatMap, List.mem_filter,
      List.mem_singleton, decide_eq_true_eq] at h
    rcases h with ⟨q, ⟨_, hlt⟩, hpc⟩ | h
    · exact le_of_lt (lt_of_lt_of_le hlt (ih q.1 q.2 pc hpc))
    · simp [h]

/-- Ends produced by `starMatches` stay within a bound respected by the
body. -/
theorem starMatches_mem_ub {L : Nat} {body : Nat → Caps → List (Nat × Caps)}
    (hb : ∀ p c q, p ≤ L → q ∈ body p c → q.1 ≤ L) :
    ∀ k pos caps pc, pos ≤ L → pc ∈ starMatches body k pos caps → pc.1 ≤ L := by
  intro k
  induction k with
  | zero =>
    intro pos caps pc hpos h
    simp only [starMatches, List.mem_singleton] at h
    simp [h, hpos]
  | succ k ih =>
    intro pos caps pc hpos h
    simp only [starMatches, List.mem_append, List.mem_flatMap, List.mem_filter,
      List.mem_singleton, decide_eq_true_eq] at h
    rcases h with ⟨q, ⟨hq, _⟩, hpc⟩ | h
    · exact ih q.1 q.2 pc (hb pos caps q hpos hq) hpc
    · simp [h, hpos]

/-- Match ends never precede the start position. -/
theorem reMatches_mem_le (f : Flags) (text : List Char) :
    ∀ r pos caps pc, pc ∈ reMatches f text r pos caps → pos ≤ pc.1 := by
  intro r
  induction r with
  | eps =>
    intro pos caps pc h
    simp only [reMatches, List.mem_singleton] at h
    simp [h]
  | atom a =>
    intro pos caps pc h
    simp only [reMatches] at h
    rcases hc : charAt text pos with _ | c <;> rw [hc] at h
    · simp at h
    · by_cases hm : matchAtom f a c <;> simp [hm] at h
      simp [h]
  | cat r s ihr ihs =>
    intro pos caps pc h
    simp only [reMatches, List.mem_flatMap] at h
    obtain ⟨q, hq, hpc⟩ := h
    exact le_trans (ihr pos caps q hq) (ihs q.1 q.2 pc hpc)
  | alt r s ihr ihs =>
    intro pos caps pc h
    simp only [reMatches, List.mem_append] at h
    rcases h with h | h
    · exact ihr pos caps pc h
    · exact ihs pos caps pc h
  | star r ihr =>
    intro pos caps pc h
    exact starMatches_mem_le _ pos caps pc h
  | group n r ihr =>
    intro pos caps pc h
    simp only [reMatches, List.mem_map] at h
    obtain ⟨q, hq, hpc⟩ := h
    have := ihr pos caps q hq
    simp [← hpc, this]

/-- Match ends never exceed the text length when the start position is in
range. -/
theorem reMatches_mem_ub (f : Flags) (text : List Char) :
    ∀ r pos caps pc, pos ≤ text.length →
      pc ∈ reMatches f text r pos caps → pc.1 ≤ text.length := by
  intro r
  induction r with
  | eps =>
    intro pos caps pc hpos h
    simp only [reMatches, List.mem_singleton] at h
    simp [h, hpos]
  | atom a =>
    intro pos caps pc hpos h
    simp only [reMatches] at h
    rcases hc : charAt text pos with _ | c <;> rw [hc] at h
    · simp at h
    · by_cases hm : matchAtom f a c <;> simp [hm] at h
      have hlt : pos < text.length := by
        by_contra hge
        have : charAt text pos = none := by
          have : text.length ≤ pos := le_of_not_lt hge
          clear hc hm h hpos hge
          induction text generalizing pos with
          | nil => rfl
          | cons c cs ih =>
            cases pos with
            | zero => simp at this
            | succ p => exact ih p (by simpa using this)
        simp [this] at hc
      simp [h]; omega
  | cat r s ihr ihs =>
    intro pos caps pc hpos h
    simp only [reMatches, List.mem_flatMap] at h
    obtain ⟨q, hq, hpc⟩ := h
    exact ihs q.1 q.2 pc (ihr pos caps q hpos hq) hpc
  | alt r s ihr ihs =>
    intro pos caps pc hpos h
    simp only [reMatches, List.mem_append] at h
    rcases h with h | h
    · exact ihr pos caps pc hpos h
    · exact ihs pos caps pc hpos h
  | star r ihr =>
    intro pos caps pc hpos h
    exact starMatches_mem_ub (fun p c q hp => ihr p c q hp) _ pos caps pc hpos h
  | group n r ihr =>
    intro pos caps pc hpos h
    simp only [reMatches, List.mem_map] at h
    obtain ⟨q, hq, hpc⟩ := h
    have := ihr pos caps q hpos hq
    simp [← hpc, this]

/-- A successful search yields a span `pos ≤ s ≤ e ≤ |text|`. -/
theorem searchAux_some_bounds (f : Flags) (r : Re) (text : List Char) :
    ∀ fuel pos s e caps, searchAux f r text fuel pos = some (s, e, caps) →
      pos ≤ s ∧ s ≤ e ∧ s ≤ text.length ∧ e ≤ text.length := by
  intro fuel
  induction fuel with
  | zero => intro pos s e caps h; simp [searchAux] at h
  | succ fuel ih =>
    intro pos s e caps h
    unfold searchAux at h
    split at h
    · simp at h
    next hlen =>
      have hpos : pos ≤ text.length := le_of_not_lt hlen
      split at h
      next e' caps' tl hm =>
        have hmem : (e', caps') ∈ reMatches f text r pos [] := by
          rw [hm]; exact List.mem_cons_self _ _
        have h1 := reMatches_mem_le f text r pos [] (e', caps') hmem
        have h2 := reMatches_mem_ub f text r pos [] (e', caps') hpos hmem
        obtain ⟨hs, he, hc⟩ : pos = s ∧ e' = e ∧ caps' = caps := by
          injection h with h'
          exact ⟨congrArg (·.1) h', congrArg (·.2.1) h', congrArg (·.2.2) h'⟩
        subst hs; subst he
        exact ⟨le_refl _, h1, hpos, h2⟩
      next hm =>
        have := ih (pos + 1) s e caps h
        exact ⟨by omega, this.2.1, this.2.2.1, this.2.2.2⟩

/-- Bounds for `searchF`. -/
theorem searchF_some_bounds (f : Flags) (r : Re) (text : List Char)
    (pos s e : Nat) (caps : Caps) (h : searchF f r text pos = some (s, e, caps)) :
    pos ≤ s ∧ s ≤ e ∧ s ≤ text.length ∧ e ≤ text.length :=
  searchAux_some_bounds f r text _ pos s e caps h

/-- With fuel covering all remaining scan positions, the match scanner
completes: the position strictly advances at every step, by one unit more
than the match end after a zero-length match. -/
theorem findIterAux_isSome (f : Flags) (r : Re) (text : List Char) :
    ∀ fuel pos, text.length + 2 - pos ≤ fuel → 1 ≤ fuel →
      (findIterAux f r text fuel pos).isSome = true := by
  intro fuel
  induction fuel with
  | zero => intro pos _ h1; omega
  | succ fuel ih =>
    intro pos h _
    unfold findIterAux
    split
    · simp
    next hlen =>
      have hpos : pos ≤ text.length := le_of_not_lt hlen
      cases hs : searchF f r text pos with
      | none => simp
      | some m =>
        obtain ⟨s, e, caps⟩ := m
        obtain ⟨h1, h2, h3, h4⟩ := searchF_some_bounds f r text pos s e caps hs
        have hrec : (findIterAux f r text fuel (if s = e then e + 1 else e)).isSome := by
          apply ih
          · split <;> omega
          · omega
        cases hr : findIterAux f r text fuel (if s = e then e + 1 else e) with
        | none => rw [hr] at hrec; simp at hrec
        | some l => simp [hr]

/-- With fuel covering all remaining scan positions, the split loop
completes: the position strictly advances at every step, including the skip
past a zero-length separator match. -/
theorem splitAux_isSome (f : Flags) (cre : CompiledRe) (text : List Char) :
    ∀ fuel pos last, text.length + 2 - pos ≤ fuel → 1 ≤ fuel →
      (splitAux f cre text fuel pos last).isSome = true := by
  intro fuel
  induction fuel with
  | zero => intro pos last _ h1; omega
  | succ fuel ih =>
    intro pos last h _
    unfold splitAux
    cases hs : searchF f cre.re text pos with
    | none => simp
    | some m =>
      obtain ⟨s, e, caps⟩ := m
      obtain ⟨h1, h2, h3, h4⟩ := searchF_some_bounds f cre.re text pos s e caps hs
      simp only []
      by_cases hse : s = e
      · rw [if_pos hse]
        by_cases hl : last = text.length
        · simp [hl]
        · rw [if_neg hl]
          exact ih (s + 1) last (by omega) (by omega)
      · rw [if_neg hse]
        have hrec : (splitAux f cre text fuel e e).isSome :=
          ih e e (by omega) (by omega)
        cases hr : splitAux f cre text fuel e e with
        | none => rw [hr] at hrec; simp at hrec
        | some l => simp [hr]

/-- Matches reported by the scanner start no earlier than its start position,
and consecutive matches advance: the next match starts at or after the
previous match's end, strictly after it when that match was zero-length. -/
theorem findIterAux_starts_and_chain (f : Flags) (r : Re) (text : List Char) :
    ∀ fuel pos l, findIterAux f r text fuel pos = some l →
      (∀ m ∈ l, pos ≤ m.1) ∧
      List.Chain' (fun m m' : Nat × Nat × Caps =>
        (if m.1 = m.2.1 then m.2.1 + 1 else m.2.1) ≤ m'.1) l := by
  intro fuel
  induction fuel with
  | zero => intro pos l h; simp [findIterAux] at h
  | succ fuel ih =>
    intro pos l h
    unfold findIterAux at h
    split at h
    · obtain rfl : ([] : List (Nat × Nat × Caps)) = l := by injection h
      simp
    next hlen =>
      split at h
      next hs =>
        obtain rfl : ([] : List (Nat × Nat × Caps)) = l := by injection h
        simp
      next s e caps hs =>
        obtain ⟨h1, h2, _, _⟩ := searchF_some_bounds f r text pos s e caps hs
        cases hr : findIterAux f r text fuel (if s = e then e + 1 else e) with
        | none => rw [hr] at h; simp at h
        | some rest =>
          rw [hr] at h
          obtain rfl : (s, e, caps) :: rest = l := by
            simpa using h
          obtain ⟨hstarts, hchain⟩ := ih _ rest hr
          constructor
          · intro m hm
            rcases List.mem_cons.mp hm with rfl | hm
            · exact h1
            · have := hstarts m hm
              split at this <;> omega
          · rw [List.chain'_cons']
            refine ⟨?_, hchain⟩
            intro y hy
            have hmem : y ∈ rest := List.mem_of_mem_head? hy
            exact hstarts y hmem

/-- Splitting the empty text yields exactly one empty piece, whatever the
pattern (`re.split` returns `['']` on `''`). -/
theorem reSplit_nil (f : Flags) (cre : CompiledRe) : reSplit f cre [] = [some []] := by
  cases hm : reMatches f [] cre.re 0 [] with
  | nil => simp [reSplit, splitAux, searchF, searchAux, hm, pySlice]
  | cons hd tl =>
    obtain ⟨e, caps⟩ := hd
    have hub := reMatches_mem_ub f [] cre.re 0 [] (e, caps) (by simp)
      (by rw [hm]; exact List.mem_cons_self _ _)
    obtain rfl : e = 0 := by simpa using hub
    simp [reSplit, splitAux, searchF, searchAux, hm, pySlice]

/-- Scanning the empty text with a pattern that has no zero-length match at
position 0 yields no matches. -/
theorem reFindIter_nil_of_no_empty_match (f : Flags) (r : Re)
    (hm : reMatches f [] r 0 [] = []) : reFindIter f r [] = [] := by
  simp [reFindIter, findIterAux, searchF, searchAux, hm]

/-- C6: the scanners underlying `tokenize` and `span_tokenize` terminate in
both modes on every pattern and finite text: fuel equal to the number of scan
positions plus one always suffices for the TOKEN-mode match scanner and for
the GAP-mode split loop, and after a zero-length match the scan position
advances by at least one unit (the next match starts strictly after the end
of a zero-length match, and at or after the end of any match). -/
theorem c6_scanners_terminate_and_advance (f : Flags) (r : Re)
    (cre : CompiledRe) (text : List Char) :
    (findIterAux f r text (text.length + 2) 0).isSome = true
    ∧ (splitAux f cre text (text.length + 2) 0 0).isSome = true
    ∧ List.Chain' (fun m m' : Nat × Nat × Caps =>
        (if m.1 = m.2.1 then m.2.1 + 1 else m.2.1) ≤ m'.1) (reFindIter f r text) := by
  refine ⟨findIterAux_isSome f r text _ 0 (by omega) (by omega),
    splitAux_isSome f cre text _ 0 0 (by omega) (by omega), ?_⟩
  unfold reFindIter
  cases h : findIterAux f r text (text.length + 2) 0 with
  | none => simp
  | some l => simpa using (findIterAux_starts_and_chain f r text _ 0 l h).2

/-- C5 (amended): with a configuration whose pattern compiles, `tokenize`
never fails on any text; the empty text yields the empty sequence in GAP mode
when `discard_empty` is set, and in TOKEN mode when the pattern has no
zero-length match at position 0.  (In GAP mode with `discard_empty = False`
the empty text instead yields one empty token, and in TOKEN mode an
empty-matching pattern yields one empty token — see the counterexample.) -/
theorem c5_amended_no_failure_and_empty_text (t : RegexpTokenizer)
    (cre : CompiledRe) (h : checkRegexp t = some cre) :
    (∀ text, ∃ l, t.tokenize text = .ok l)
    ∧ (t.gaps = true → t.discardEmpty = true → t.tokenize [] = .ok [])
    ∧ (t.gaps = false → reMatches pyCompileFlags [] cre.re 0 [] = [] →
        t.tokenize [] = .ok []) := by
  refine ⟨?_, ?_, ?_⟩
  · intro text
    unfold RegexpTokenizer.tokenize
    rw [h]
    by_cases hg : t.gaps <;> by_cases hd : t.discardEmpty <;>
      simp [hg, hd]
  · intro hg hd
    unfold RegexpTokenizer.tokenize
    rw [h]
    simp [hg, hd, reSplit_nil, splitItemToTok, PyTok.truthy]
  · intro hg hm
    unfold RegexpTokenizer.tokenize
    rw [h]
    simp [hg, reFindall, reFindIter_nil_of_no_empty_match _ _ hm]

/-- Witness for the amended C5 at the whitespace preset: the empty text
yields the empty sequence and a non-empty text tokenizes without failure. -/
theorem c5_amended_no_failure_and_empty_text_witness :
    whitespaceTokenizer.tokenize [] = .ok []
    ∧ ∃ l, whitespaceTokenizer.tokenize " a  b ".data = .ok l := by
  have h := c5_amended_no_failure_and_empty_text whitespaceTokenizer ⟨wsRe, 0⟩ rfl
  exact ⟨h.2.1 rfl rfl, h.1 " a  b ".data⟩

/-- Out-of-range lookup. -/
theorem charAt_eq_none {l : List Char} {n : Nat} (h : l.length ≤ n) :
    charAt l n = none := by
  induction l generalizing n with
  | nil => rfl
  | cons c cs ih =>
    cases n with
    | zero => simp at h
    | succ m => exact ih (by simpa using h)

/-- An in-range lookup has an in-range index. -/
theorem charAt_some_lt {l : List Char} {n : Nat} {c : Char}
    (h : charAt l n = some c) : n < l.length := by
  by_contra hge
  rw [charAt_eq_none (le_of_not_lt hge)] at h
  exact Option.noConfusion h

/-- A failed lookup empties the drop. -/
theorem drop_eq_nil_of_charAt_none {l : List Char} {n : Nat}
    (h : charAt l n = none) : l.drop n = [] := by
  induction l generalizing n with
  | nil => simp
  | cons c cs ih =>
    cases n with
    | zero => exact Option.noConfusion h
    | succ m => simpa using ih h

/-- A successful lookup splits the drop. -/
theorem drop_eq_cons_of_charAt {l : List Char} {n : Nat} {c : Char}
    (h : charAt l n = some c) : l.drop n = c :: l.drop (n + 1) := by
  induction l generalizing n with
  | nil => exact Option.noConfusion h
  | cons d ds ih =>
    cases n with
    | zero =>
      obtain rfl : d = c := by simpa [charAt] using h
      simp
    | succ m => simpa using ih h

/-- Lookup inside a dropped prefix. -/
theorem charAt_drop (l : List Char) (n i : Nat) :
    charAt (l.drop n) i = charAt l (n + i) := by
  induction n generalizing l with
  | zero => simp
  | succ m ih =>
    cases l with
    | nil => simp [charAt]
    | cons c cs => simpa [Nat.succ_add] using ih cs

/-- The whitespace run never exceeds the list length. -/
theorem wsRun_le_length (l : List Char) : wsRun l ≤ l.length := by
  induction l with
  | nil => simp [wsRun]
  | cons c cs ih =>
    rw [wsRun]
    split
    · simpa using ih
    · simp

/-- Characters inside the whitespace run are whitespace. -/
theorem wsRun_take_ws (l : List Char) :
    ∀ c ∈ l.take (wsRun l), isPySpace c = true := by
  induction l with
  | nil => simp
  | cons c cs ih =>
    by_cases h : isPySpace c
    · simp only [wsRun, if_pos h, List.take_succ_cons]
      intro d hd
      rcases List.mem_cons.mp hd with rfl | hd
      · exact h
      · exact ih d hd
    · simp [wsRun, h]

/-- The character right after the whitespace run is not whitespace. -/
theorem wsRun_stop (l : List Char) :
    ∀ c, charAt l (wsRun l) = some c → isPySpace c = false := by
  induction l with
  | nil => intro c h; exact Option.noConfusion h
  | cons d ds ih =>
    intro c h
    by_cases hd : isPySpace d
    · rw [wsRun, if_pos hd] at h
      exact ih c h
    · rw [wsRun, if_neg hd] at h
      obtain rfl : d = c := by simpa [charAt] using h
      simpa using hd

/-- A list without a first whitespace index is whitespace-free. -/
theorem firstIdx_none {l : List Char} (h : firstIdx l = none) :
    ∀ c ∈ l, isPySpace c = false := by
  induction l with
  | nil => simp
  | cons c cs ih =>
    by_cases hc : isPySpace c
    · simp [firstIdx, hc] at h
    · rw [firstIdx, if_neg hc] at h
      intro d hd
      rcases List.mem_cons.mp hd with rfl | hd
      · simpa using hc
      · exact ih (by simpa using h) d hd

/-- The first whitespace index points at a whitespace character and nothing
before it is whitespace. -/
theorem firstIdx_some {l : List Char} {i : Nat} (h : firstIdx l = some i) :
    (∃ c, charAt l i = some c ∧ isPySpace c = true)
    ∧ ∀ c ∈ l.take i, isPySpace c = false := by
  induction l generalizing i with
  | nil => exact Option.noConfusion h
  | cons c cs ih =>
    by_cases hc : isPySpace c
    · obtain rfl : i = 0 := by simpa [firstIdx, hc] using h.symm
      exact ⟨⟨c, rfl, hc⟩, by simp⟩
    · rw [firstIdx, if_neg hc] at h
      cases hi : firstIdx cs with
      | none => rw [hi] at h; exact Option.noConfusion h
      | some j =>
        rw [hi] at h
        obtain rfl : i = j + 1 := by simpa using h.symm
        obtain ⟨⟨d, hd, hdws⟩, hpre⟩ := ih hi
        refine ⟨⟨d, hd, hdws⟩, ?_⟩
        intro x hx
        rw [List.take_succ_cons] at hx
        rcases List.mem_cons.mp hx with rfl | hx
        · simpa using hc
        · exact hpre x hx

/-- Failed lookups characterize out-of-range indices. -/
theorem charAt_none_ge {l : List Char} {n : Nat} (h : charAt l n = none) :
    l.length ≤ n := by
  by_contra hlt
  obtain ⟨c, hc⟩ : ∃ c, charAt l n = some c := by
    clear h
    induction l generalizing n with
    | nil => simp at hlt
    | cons d ds ih =>
      cases n with
      | zero => exact ⟨d, rfl⟩
      | succ m => exact ih (by simpa using hlt)
  rw [hc] at h
  exact Option.noConfusion h

/-- No first whitespace index past the end of the text. -/
theorem firstWS_nil {text : List Char} {pos : Nat} (h : text.drop pos = []) :
    firstWS text pos = none := by
  simp [firstWS, h, firstIdx]

/-- The first whitespace index at a whitespace character is that position. -/
theorem firstWS_ws {text : List Char} {pos : Nat} {c : Char}
    (hc : charAt text pos = some c) (hws : isPySpace c = true) :
    firstWS text pos = some pos := by
  rw [firstWS, drop_eq_cons_of_charAt hc, firstIdx, if_pos hws]
  simp

/-- The first whitespace index skips a non-whitespace character. -/
theorem firstWS_step {text : List Char} {pos : Nat} {c : Char}
    (hc : charAt text pos = some c) (hws : isPySpace c = false) :
    firstWS text pos = firstWS text (pos + 1) := by
  rw [firstWS, firstWS, drop_eq_cons_of_charAt hc, firstIdx,
    if_neg (by simp [hws])]
  cases firstIdx (text.drop (pos + 1)) with
  | none => simp
  | some j =>
    have : pos + (j + 1) = pos + 1 + j := by omega
    simp [this]

/-- Repetition lists are never empty: they end with the zero-iteration
candidate. -/
theorem starMatches_ne_nil (body : Nat → Caps → List (Nat × Caps))
    (k pos : Nat) (caps : Caps) : starMatches body k pos caps ≠ [] := by
  cases k <;> simp [starMatches]

/-- Head of the greedy repetition of the whitespace atom: it consumes the
whole whitespace run. -/
theorem starMatches_ws_head (f : Flags) (text : List Char) :
    ∀ k pos caps, wsRun (text.drop pos) ≤ k →
      (starMatches (reMatches f text (.atom (.perl .space))) k pos caps).head?
        = some (pos + wsRun (text.drop pos), caps) := by
  intro k
  induction k with
  | zero =>
    intro pos caps h
    have h0 : wsRun (text.drop pos) = 0 := by omega
    simp [starMatches, h0]
  | succ k ih =>
    intro pos caps h
    cases hc : charAt text pos with
    | none =>
      have hd : text.drop pos = [] := drop_eq_nil_of_charAt_none hc
      have hb : reMatches f text (.atom (.perl .space)) pos caps = [] := by
        simp [reMatches, hc]
      rw [starMatches, hb]
      simp [hd, wsRun]
    | some c =>
      have hd : text.drop pos = c :: text.drop (pos + 1) := drop_eq_cons_of_charAt hc
      by_cases hws : isPySpace c
      · have hb : reMatches f text (.atom (.perl .space)) pos caps = [(pos + 1, caps)] := by
          simp [reMatches, hc, matchAtom, matchPerl, hws]
        have hrun : wsRun (text.drop pos) = wsRun (text.drop (pos + 1)) + 1 := by
          rw [hd, wsRun, if_pos hws]
        have hih := ih (pos + 1) caps (by omega)
        rw [starMatches, hb]
        have hfil : [(pos + 1, caps)].filter (fun pc => decide (pos < pc.1))
            = [(pos + 1, caps)] := by simp
        rw [hfil]
        have hfm : [(pos + 1, caps)].flatMap
            (fun pc => starMatches (reMatches f text (.atom (.perl .space))) k pc.1 pc.2)
            = starMatches (reMatches f text (.atom (.perl .space))) k (pos + 1) caps := by
          simp
        rw [hfm]
        cases hsm : starMatches (reMatches f text (.atom (.perl .space))) k (pos + 1) caps with
        | nil => exact absurd hsm (starMatches_ne_nil _ _ _ _)
        | cons a tl =>
          rw [hsm] at hih
          obtain rfl : a = (pos + 1 + wsRun (text.drop (pos + 1)), caps) := by
            simpa using hih
          rw [hrun]
          have : pos + (wsRun (text.drop (pos + 1)) + 1)
              = pos + 1 + wsRun (text.drop (pos + 1)) := by omega
          simp [this]
      · have hb : reMatches f text (.atom (.perl .space)) pos caps = [] := by
          simp [reMatches, hc, matchAtom, matchPerl, hws]
        have hrun : wsRun (text.drop pos) = 0 := by
          rw [hd, wsRun, if_neg hws]
        rw [starMatches, hb]
        simp [hrun]

/-- The `\s+` matcher has no candidate off whitespace. -/
theorem reMatches_wsRe_nil (f : Flags) (text : List Char) (pos : Nat) (caps : Caps)
    (h : ∀ c, charAt text pos = some c → isPySpace c = false) :
    reMatches f text wsRe pos caps = [] := by
  cases hc : charAt text pos with
  | none => simp [wsRe, reMatches, hc]
  | some c => simp [wsRe, reMatches, hc, matchAtom, matchPerl, h c hc]

/-- On whitespace, the `\s+` matcher commits to the maximal whitespace
run. -/
theorem reMatches_wsRe_head (f : Flags) (text : List Char) (pos : Nat) (caps : Caps)
    (c : Char) (hc : charAt text pos = some c) (hws : isPySpace c = true) :
    (reMatches f text wsRe pos caps).head? = some (wsMatchEnd text pos, caps)
    ∧ reMatches f text wsRe pos caps ≠ [] := by
  have hb : reMatches f text (.atom (.perl .space)) pos caps = [(pos + 1, caps)] := by
    simp [reMatches, hc, matchAtom, matchPerl, hws]
  have hcat : reMatches f text wsRe pos caps
      = starMatches (reMatches f text (.atom (.perl .space))) text.length (pos + 1) caps := by
    show (reMatches f text (.atom (.perl .space)) pos caps).flatMap _ = _
    rw [hb]
    simp [reMatches]
  have hk : wsRun (text.drop (pos + 1)) ≤ text.length :=
    le_trans (wsRun_le_length _) (by simp)
  have hhead := starMatches_ws_head f text text.length (pos + 1) caps hk
  constructor
  · rw [hcat, hhead, wsMatchEnd]
  · rw [hcat]
    exact starMatches_ne_nil _ _ _ _

/-- Search characterization for `\s+`: the leftmost match starts at the
first whitespace character and ends after the maximal whitespace run. -/
theorem searchAux_ws (f : Flags) (text : List Char) :
    ∀ fuel pos, text.length + 1 - pos ≤ fuel →
      searchAux f wsRe text fuel pos
        = (firstWS text pos).map fun s => (s, wsMatchEnd text s, ([] : Caps)) := by
  intro fuel
  induction fuel with
  | zero =>
    intro pos h
    have hge : text.length ≤ pos := by omega
    rw [firstWS_nil (drop_eq_nil_of_charAt_none (charAt_eq_none hge))]
    simp [searchAux]
  | succ fuel ih =>
    intro pos h
    rw [searchAux]
    by_cases hlen : text.length < pos
    · rw [if_pos hlen,
        firstWS_nil (drop_eq_nil_of_charAt_none (charAt_eq_none (by omega)))]
      simp
    · rw [if_neg hlen]
      cases hc : charAt text pos with
      | none =>
        have hge : text.length ≤ pos := charAt_none_ge hc
        have hnil := reMatches_wsRe_nil f text pos []
          (fun d hd => by rw [hc] at hd; exact Option.noConfusion hd)
        rw [hnil, ih (pos + 1) (by omega),
          firstWS_nil (drop_eq_nil_of_charAt_none (charAt_eq_none hge)),
          firstWS_nil (drop_eq_nil_of_charAt_none (charAt_eq_none (by omega)))]
      | some c =>
        by_cases hws : isPySpace c
        · obtain ⟨hhead, hne⟩ := reMatches_wsRe_head f text pos [] c hc hws
          cases hm : reMatches f text wsRe pos [] with
          | nil => exact absurd hm hne
          | cons a tl =>
            rw [hm] at hhead
            obtain rfl : a = (wsMatchEnd text pos, ([] : Caps)) := by simpa using hhead
            rw [firstWS_ws hc hws]
            simp
        · have hwsf : isPySpace c = false := by simpa using hws
          have hnil := reMatches_wsRe_nil f text pos []
            (fun d hd => by rw [hc] at hd; injection hd with hd; rw [← hd]; exact hwsf)
          rw [hnil, ih (pos + 1) (by omega), firstWS_step hc hwsf]

/-- Search characterization for `\s+` at the outer entry point. -/
theorem searchF_ws (f : Flags) (text : List Char) (pos : Nat) :
    searchF f wsRe text pos
      = (firstWS text pos).map fun s => (s, wsMatchEnd text s, ([] : Caps)) :=
  searchAux_ws f text _ pos (le_refl _)

/-- Scanning a whitespace-free block pushes it onto the accumulator. -/
theorem wsWordsAux_nonws (w : List Char) (hw : ∀ c ∈ w, isPySpace c = false) :
    ∀ acc l, wsWordsAux acc (w ++ l) = wsWordsAux (w.reverse ++ acc) l := by
  induction w with
  | nil => intro acc l; simp
  | cons c cs ih =>
    intro acc l
    have hc : isPySpace c = false := hw c (List.mem_cons_self _ _)
    rw [List.cons_append, wsWordsAux, if_neg (by simp [hc]),
      ih (fun d hd => hw d (List.mem_cons_of_mem _ hd)) (c :: acc) l]
    congr 1
    simp

/-- A leading whitespace character is dropped when no word is open. -/
theorem wsWords_ws_cons {c : Char} (hc : isPySpace c = true) (l : List Char) :
    wsWords (c :: l) = wsWords l := by
  rw [wsWords, wsWords, wsWordsAux, if_pos hc]
  simp

/-- An all-whitespace prefix does not affect the word list. -/
theorem wsWords_ws_prefix (p : List Char) (hp : ∀ c ∈ p, isPySpace c = true) :
    ∀ l, wsWords (p ++ l) = wsWords l := by
  induction p with
  | nil => intro l; rfl
  | cons c cs ih =>
    intro l
    rw [List.cons_append, wsWords_ws_cons (hp c (List.mem_cons_self _ _))]
    exact ih (fun d hd => hp d (List.mem_cons_of_mem _ hd)) l

/-- A nonempty whitespace-free block followed by nothing or by whitespace is
the next word. -/
theorem wsWords_word_cons (w l : List Char) (hw : w ≠ [])
    (hnws : ∀ c ∈ w, isPySpace c = false)
    (hl : l = [] ∨ ∃ c l', l = c :: l' ∧ isPySpace c = true) :
    wsWords (w ++ l) = w :: wsWords l := by
  have hrev : w.reverse.isEmpty = false := by
    cases hv : w.reverse with
    | nil => exact absurd (by simpa using congrArg List.reverse hv) hw
    | cons a tl => simp [hv]
  rw [wsWords, wsWordsAux_nonws w hnws [] l, List.append_nil]
  rcases hl with rfl | ⟨c, l', rfl, hc⟩
  · rw [wsWordsAux, if_neg (by simp [hrev])]
    simp [wsWords, wsWordsAux]
  · rw [wsWordsAux, if_pos hc, if_neg (by simp [hrev]), wsWords_ws_cons hc]
    simp [wsWords]

/-- A whitespace-free text is a single word (or no word at all when it is
empty). -/
theorem wsWords_no_ws (l : List Char) (h : ∀ c ∈ l, isPySpace c = false) :
    wsWords l = if l = [] then [] else [l] := by
  have h2 := wsWordsAux_nonws l h [] []
  rw [List.append_nil, List.append_nil] at h2
  rw [wsWords, h2, wsWordsAux]
  cases l with
  | nil => simp
  | cons c cs => simp

/-- Every word produced by the reference splitter is nonempty and
whitespace-free (given a whitespace-free open accumulator). -/
theorem wsWordsAux_mem : ∀ (l : List Char) (acc : List Char),
    (∀ c ∈ acc, isPySpace c = false) →
    ∀ w ∈ wsWordsAux acc l, w ≠ [] ∧ ∀ c ∈ w, isPySpace c = false := by
  intro l
  induction l with
  | nil =>
    intro acc hacc w hw
    rw [wsWordsAux] at hw
    split at hw
    · simp at hw
    next hne =>
      obtain rfl : w = acc.reverse := by simpa using hw
      constructor
      · intro habs
        have hanil : acc = [] := by simpa using congrArg List.reverse habs
        exact hne (by simp [hanil])
      · intro d hd
        exact hacc d (List.mem_reverse.mp hd)
  | cons c cs ih =>
    intro acc hacc w hw
    rw [wsWordsAux] at hw
    split at hw
    · split at hw
      · exact ih [] (by simp) w hw
      next hne =>
        rcases List.mem_cons.mp hw with rfl | hw
        · constructor
          · intro habs
            have hanil : acc = [] := by simpa using congrArg List.reverse habs
            exact hne (by simp [hanil])
          · intro d hd
            exact hacc d (List.mem_reverse.mp hd)
        · exact ih [] (by simp) w hw
    next hws =>
      refine ih (c :: acc) ?_ w hw
      intro d hd
      rcases List.mem_cons.mp hd with rfl | hd
      · simpa using hws
      · exact hacc d hd

/-- Joining nonempty whitespace-free words with single spaces and splitting
again recovers exactly the words. -/
theorem wsWords_joinSp : ∀ ts : List (List Char),
    (∀ w ∈ ts, w ≠ [] ∧ ∀ c ∈ w, isPySpace c = false) →
    wsWords (joinSp ts) = ts := by
  intro ts
  induction ts with
  | nil => intro _; rfl
  | cons w ws ih =>
    intro h
    obtain ⟨hw, hnws⟩ := h w (List.mem_cons_self _ _)
    cases ws with
    | nil =>
      show wsWords (joinSp [w]) = [w]
      rw [show joinSp [w] = w from rfl, wsWords_no_ws w hnws, if_neg hw]
    | cons w' ws' =>
      rw [show joinSp (w :: w' :: ws') = w ++ ' ' :: joinSp (w' :: ws') from rfl,
        wsWords_word_cons w _ hw hnws (Or.inr ⟨' ', joinSp (w' :: ws'), rfl, by decide⟩),
        wsWords_ws_cons (by decide),
        ih (fun x hx => h x (List.mem_cons_of_mem _ hx))]

/-- Slice to the end of the text. -/
theorem pySlice_to_end (text : List Char) (pos : Nat) :
    pySlice text pos text.length = text.drop pos := by
  rw [pySlice, show text.length - pos = (text.drop pos).length by simp]
  exact List.take_length _

/-- Skipping the whitespace run that starts at a whitespace position does not
change the word list. -/
theorem wsWords_drop_wsMatchEnd (text : List Char) (s : Nat) (c : Char)
    (hc : charAt text s = some c) (hws : isPySpace c = true) :
    wsWords (text.drop s) = wsWords (text.drop (wsMatchEnd text s)) := by
  have hd : text.drop s = c :: text.drop (s + 1) := drop_eq_cons_of_charAt hc
  have hdrop : (text.drop (s + 1)).drop (wsRun (text.drop (s + 1)))
      = text.drop (wsMatchEnd text s) := by
    rw [List.drop_drop, wsMatchEnd]
  have hdecomp : text.drop s
      = (c :: (text.drop (s + 1)).take (wsRun (text.drop (s + 1))))
        ++ text.drop (wsMatchEnd text s) := by
    rw [hd, ← hdrop, List.cons_append, List.take_append_drop]
  rw [hdecomp]
  apply wsWords_ws_prefix
  intro d hd'
  rcases List.mem_cons.mp hd' with rfl | hd'
  · exact hws
  · exact wsRun_take_ws _ d hd'

/-- The split loop on the whitespace separator computes, after gap-mode
filtering, exactly the maximal whitespace-free runs of the remaining text. -/
theorem splitAux_ws (f : Flags) (text : List Char) :
    ∀ fuel pos, text.length + 1 - pos < fuel →
      ∃ items, splitAux f ⟨wsRe, 0⟩ text fuel pos pos = some items
        ∧ (items.map splitItemToTok).filter PyTok.truthy
            = (wsWords (text.drop pos)).map PyTok.str := by
  intro fuel
  induction fuel with
  | zero => intro pos h; omega
  | succ fuel ih =>
    intro pos h
    cases hfw : firstWS text pos with
    | none =>
      refine ⟨[some (pySlice text pos text.length)], ?_, ?_⟩
      · rw [splitAux, searchF_ws, hfw]
        rfl
      · have hnone : firstIdx (text.drop pos) = none := by
          rcases hi : firstIdx (text.drop pos) with _ | i
          · rfl
          · rw [firstWS, hi] at hfw
            simp at hfw
        have hnws := firstIdx_none hnone
        rw [pySlice_to_end, wsWords_no_ws _ hnws]
        cases hdp : text.drop pos with
        | nil => simp [splitItemToTok, PyTok.truthy]
        | cons a tl => simp [splitItemToTok, PyTok.truthy]
    | some s =>
      obtain ⟨i, hi, hsi⟩ : ∃ i, firstIdx (text.drop pos) = some i ∧ pos + i = s := by
        rw [firstWS] at hfw
        rcases hi : firstIdx (text.drop pos) with _ | i
        · rw [hi] at hfw; simp at hfw
        · rw [hi] at hfw
          exact ⟨i, rfl, by simpa using hfw⟩
      obtain ⟨⟨c, hci, hcws⟩, hpre⟩ := firstIdx_some hi
      have hcs : charAt text s = some c := by
        rw [← hsi, ← charAt_drop]
        exact hci
      have hslt : s < text.length := charAt_some_lt hcs
      have hrun_le : wsRun (text.drop (s + 1)) ≤ text.length - (s + 1) := by
        have := wsRun_le_length (text.drop (s + 1))
        simpa using this
      have he_le : wsMatchEnd text s ≤ text.length := by
        rw [wsMatchEnd]; omega
      have hse : s ≠ wsMatchEnd text s := by
        rw [wsMatchEnd]; omega
      have hpos_le : pos ≤ s := by omega
      obtain ⟨rest, hrest, hresteq⟩ :=
        ih (wsMatchEnd text s) (by rw [wsMatchEnd]; omega)
      refine ⟨some (pySlice text pos s) :: rest, ?_, ?_⟩
      · rw [splitAux, searchF_ws, hfw]
        simp only [Option.map_some, Option.map_some']
        rw [if_neg hse, hrest]
        rfl
      · have hword : pySlice text pos s = (text.drop pos).take i := by
          rw [pySlice]
          congr 1
          omega
        have hdropS : (text.drop pos).drop i = text.drop s := by
          rw [List.drop_drop, hsi]
        have hsplit : text.drop pos = (text.drop pos).take i ++ text.drop s := by
          rw [← hdropS, List.take_append_drop]
        have hws_eq : wsWords (text.drop s) = wsWords (text.drop (wsMatchEnd text s)) :=
          wsWords_drop_wsMatchEnd text s c hcs hcws
        rcases Nat.eq_zero_or_pos i with rfl | hipos
        · have hps : pos = s := by omega
          have hempty : pySlice text pos s = [] := by
            rw [pySlice, show s - pos = 0 from by omega]
            rfl
          rw [List.map_cons, List.filter_cons, hempty]
          have htr : PyTok.truthy (splitItemToTok (some [])) = false := rfl
          rw [htr]
          simp only [Bool.false_eq_true, if_false]
          rw [hresteq, ← hws_eq, hps]
        · have hlen_take : ((text.drop pos).take i).length = i := by
            rw [List.length_take]
            simp
            omega
          have hword_ne : pySlice text pos s ≠ [] := by
            rw [hword]
            intro habs
            rw [habs] at hlen_take
            simp at hlen_take
            omega
          have hword_nws : ∀ d ∈ pySlice text pos s, isPySpace d = false := by
            rw [hword]
            exact hpre
          rw [List.map_cons, List.filter_cons]
          have : PyTok.truthy (splitItemToTok (some (pySlice text pos s))) = true := by
            simp [splitItemToTok, PyTok.truthy, hword_ne]
          rw [this, if_pos rfl, hresteq]
          have hdropS_cons : text.drop s = c :: text.drop (s + 1) :=
            drop_eq_cons_of_charAt hcs
          have : wsWords (text.drop pos) = pySlice text pos s :: wsWords (text.drop s) := by
            rw [hsplit, ← hword]
            exact wsWords_word_cons _ _ hword_ne hword_nws
              (Or.inr ⟨c, text.drop (s + 1), hdropS_cons, hcws⟩)
          rw [this, hws_eq, List.map_cons]
          rfl

/-- The whitespace preset materializes exactly the maximal whitespace-free
runs of the text. -/
theorem whitespace_tokenize_eq (text : List Char) :
    whitespaceTokenizer.tokenize text = .ok ((wsWords text).map PyTok.str) := by
  obtain ⟨items, hitems, heq⟩ :=
    splitAux_ws pyCompileFlags text (text.length + 2) 0 (by omega)
  have hchk : checkRegexp whitespaceTokenizer = some ⟨wsRe, 0⟩ := rfl
  unfold RegexpTokenizer.tokenize
  rw [hchk]
  simp only [show whitespaceTokenizer.gaps = true from rfl,
    show whitespaceTokenizer.discardEmpty = true from rfl, if_true]
  congr 1
  rw [reSplit, hitems]
  simpa using heq

/-- C8: for every text, tokenizing with the whitespace preset, joining the
tokens with a single space, and tokenizing the joined string again with the
same preset reproduces exactly the same token sequence. -/
theorem c8_whitespace_join_retokenize (text : List Char) :
    ∃ ts : List (List Char),
      whitespaceTokenizer.tokenize text = .ok (ts.map PyTok.str)
      ∧ whitespaceTokenizer.tokenize (joinSp ts) = .ok (ts.map PyTok.str) := by
  refine ⟨wsWords text, whitespace_tokenize_eq text, ?_⟩
  rw [whitespace_tokenize_eq (joinSp (wsWords text)),
    wsWords_joinSp (wsWords text) (fun w hw => wsWordsAux_mem text [] (by simp) w hw)]

/-- Counterexample to C5 in both modes.  In GAP mode with
`discard_empty = False`, the empty text tokenizes to `['']` (one empty
token), not to the empty sequence — `re.split` always returns at least one
element.  In TOKEN mode with the empty-matching pattern `\s*` (for every
value of `discard_empty`, which TOKEN mode ignores), the empty text also
tokenizes to `['']` — `re.findall` reports the zero-length match at position
0. -/
theorem c5_empty_text_not_empty_sequence :
    (mkTokenizer (.str "\\s+") true false defaultFlags).tokenize []
      = .ok [PyTok.str []]
    ∧ (mkTokenizer (.str "\\s*") false true defaultFlags).tokenize []
      = .ok [PyTok.str []]
    ∧ (mkTokenizer (.str "\\s*") false false defaultFlags).tokenize []
      = .ok [PyTok.str []]
    ∧ (Except.ok [PyTok.str []] : Except PyErr (List PyTok)) ≠ .ok [] := by
  refine ⟨rfl, rfl, rfl, by simp⟩

end NltkRegexp
